import Mathlib

/-!
Verification development for the QBL (Question Bank Language) tool.

The repository source under scrutiny is the driver `src/QBL.cpp` (class
`QBL` and `main`).  The driver delegates parsing, validation and
constraint-based selection to a `QuestionBank` object whose implementation
(`Question.hpp`, `QuestionBank.hpp`) is repository code not present under
`src/`; those operations are modelled here from the specification, and each
such definition carries a doc comment starting `Modelled from the spec:`.
Everything else (flag handlers `SetGenerate`, `SetRandomSeed`, `SetOrder`,
`UpdateOrder`, the driver methods `Generate`, `LoadFiles`, and the `main`
pipeline) is translated directly from `src/QBL.cpp`.
-/

/-- The parsed representation of one question (spec §3, `Question.hpp` not in
`src/`).  `choices` is an ordered sequence of (text, is_correct) pairs and
`tags` a list of free-form labels. -/
structure Question where
  id : String
  stem : String
  choices : List (String × Bool)
  tags : List String
deriving DecidableEq, Repr

/-- Modelled from the spec: the seeded pseudo-random generator `emp::Random`
(external Empirical library).  The spec only requires a single shared,
stateful, seeded stream (§5); we model it as a small linear-congruential
state machine. -/
structure EmpRandom where
  state : Nat
deriving DecidableEq, Repr

/-- One raw draw from the stream: returns the fresh value and the advanced
generator. -/
def EmpRandom.next (r : EmpRandom) : Nat × EmpRandom :=
  let s := (r.state * 75 + 74) % 65537
  (s, ⟨s⟩)

/-- Draw a natural number below `n` (uniform draw as used for index picks). -/
def EmpRandom.getUInt (r : EmpRandom) (n : Nat) : Nat × EmpRandom :=
  let p := r.next
  (p.1 % n, p.2)

/-- Reset as in `emp::Random::ResetSeed` (called from `QBL::SetRandomSeed`,
src/QBL.cpp:176): the generator state is reset as a function of the seed
alone; the previous state is discarded. -/
def EmpRandom.resetSeed (_r : EmpRandom) (seed : Int) : EmpRandom :=
  ⟨seed.natAbs % 65537⟩

/-- Does the question carry at least one of the given tags? -/
def hasAnyTag (q : Question) (tags : List String) : Bool :=
  tags.any fun t => q.tags.contains t

/-- Modelled from the spec: the avoid-set is the union of all identifiers
listed in the avoid-files handed to `QuestionBank::Generate`
(`QuestionBank.hpp` not in `src/`); each avoid file is one identifier per
line (spec §4.5, §6). -/
def avoidedIds (avoidFiles : List (List String)) : List String :=
  avoidFiles.foldr (fun f acc => f ++ acc) []

/-- Modelled from the spec: filtering steps 1–3 of §4.3.  A question is
eligible when its id is not avoided, it carries no excluded tag, and (when
`require_tags` is non-empty) it carries at least one required tag. -/
def eligibleList (pool : List Question) (avoidIds excludeTags requireTags : List String) :
    List Question :=
  pool.filter fun q =>
    !(avoidIds.contains q.id) &&
    !(hasAnyTag q excludeTags) &&
    (requireTags.isEmpty || hasAnyTag q requireTags)

/-- Modelled from the spec: filtering step 4 of §4.3.  When `include_tags`
is non-empty the fill pool is restricted to questions carrying an include
tag, unless the question matches a sample tag. -/
def fillEligible (elig : List Question) (includeTags sampleTags : List String) :
    List Question :=
  elig.filter fun q =>
    includeTags.isEmpty || hasAnyTag q includeTags || hasAnyTag q sampleTags

/-- Non-fatal selection warnings (spec §7): `QuotaUnmet` and
`InsufficientPool`. -/
inductive GenWarning where
  | quotaUnmet (tag : String)
  | insufficientPool (requested available : Nat)
deriving DecidableEq, Repr

/-- Running state of one `Generate` call: questions chosen so far (in draw
order), the random stream, and the warnings issued so far. -/
structure GenState where
  chosen : List Question
  rng : EmpRandom
  warnings : List GenWarning
deriving DecidableEq, Repr

/-- Draw one question from a candidate list using the seeded stream;
`none` when the list is empty. -/
def drawFrom (cands : List Question) (r : EmpRandom) : Option (Question × EmpRandom) :=
  match cands with
  | [] => none
  | c :: cs =>
    let p := EmpRandom.getUInt r (c :: cs).length
    some ((c :: cs).getD p.1 c, p.2)

/-- Modelled from the spec: one sample-tag quota entry (§4.3).  Draw one
not-yet-chosen eligible question carrying the tag; when none remains,
report `QuotaUnmet` for that tag and continue. -/
def sampleOne (elig : List Question) (tag : String) (st : GenState) : GenState :=
  let cands := elig.filter fun q => q.tags.contains tag && !(st.chosen.contains q)
  match drawFrom cands st.rng with
  | none => { st with warnings := st.warnings ++ [GenWarning.quotaUnmet tag] }
  | some p => { st with chosen := st.chosen ++ [p.1], rng := p.2 }

/-- Modelled from the spec: the quota phase processes the sample-tag entries
in declaration order (a tag with quota k appears k times in `sample_tags`,
see `QBL::_AddTags`, src/QBL.cpp:55). -/
def samplePhase (elig : List Question) (sampleTags : List String) (st : GenState) : GenState :=
  sampleTags.foldl (fun s t => sampleOne elig t s) st

/-- Draw up to `k` questions without replacement from `cands` using the
seeded stream. -/
def drawK (cands : List Question) (k : Nat) (r : EmpRandom) : List Question × EmpRandom :=
  match k, cands with
  | 0, _ => ([], r)
  | _ + 1, [] => ([], r)
  | k + 1, c :: cs =>
    let p := EmpRandom.getUInt r (c :: cs).length
    let q := (c :: cs).getD p.1 c
    let rest := drawK ((c :: cs).eraseIdx p.1) k p.2
    (q :: rest.1, rest.2)

/-- Modelled from the spec: `QuestionBank::Generate` (spec §4.3,
`QuestionBank.hpp` not in `src/`).  Filter the pool by avoid/exclude/require,
satisfy each sample-tag quota entry, then fill the remaining slots (up to
`count` total) without replacement from the include-restricted eligible set,
reporting `InsufficientPool` when fewer than `count` were chosen. -/
def bankGenerate (pool : List Question) (count : Nat) (r : EmpRandom)
    (includeTags excludeTags requireTags sampleTags : List String)
    (avoidFiles : List (List String)) : GenState :=
  let elig := eligibleList pool (avoidedIds avoidFiles) excludeTags requireTags
  let st := samplePhase elig sampleTags ⟨[], r, []⟩
  let fillCands := (fillEligible elig includeTags sampleTags).filter
    fun q => !(st.chosen.contains q)
  let fills := drawK fillCands (count - st.chosen.length) st.rng
  let chosen := st.chosen ++ fills.1
  ⟨chosen, fills.2,
    st.warnings ++
      (if chosen.length < count then [GenWarning.insufficientPool count chosen.length] else [])⟩

/-- Modelled from the spec: the Validator (§4.2, `QuestionBank::Validate`
not in `src/`).  Per-question checks: non-empty stem, at least two choices,
exactly one correct choice; pool-wide check: identifier uniqueness.  All
violations are collected. -/
def questionViolations (q : Question) : List String :=
  (if q.stem = "" then ["empty stem"] else []) ++
  (if q.choices.length < 2 then ["fewer than two choices"] else []) ++
  (if (q.choices.filter fun c => c.2).length ≠ 1 then ["not exactly one correct choice"] else [])

/-- Modelled from the spec: pool-level validation collecting every
violation (spec §4.2). -/
def validate (pool : List Question) : List String :=
  (pool.foldr (fun q acc => questionViolations q ++ acc) []) ++
  (if (pool.map fun q => q.id).Nodup then [] else ["duplicate id"])

/-- The question orderings of the driver (src/QBL.cpp:30, `enum class Order`). -/
inductive Order where
  | DEFAULT
  | RANDOM
  | ID
  | ALPHABETIC
deriving DecidableEq, Repr

/-- Insert one question into a list sorted by the comparator `le`. -/
def insertSorted (le : Question → Question → Bool) (q : Question) :
    List Question → List Question
  | [] => [q]
  | c :: cs => if le q c then q :: c :: cs else c :: insertSorted le q cs

/-- Insertion sort of a question list by the comparator `le`. -/
def sortQuestions (le : Question → Question → Bool) : List Question → List Question
  | [] => []
  | c :: cs => insertSorted le c (sortQuestions le cs)

/-- Modelled from the spec: `QuestionBank::SortID` — ascending sort by `id`
(spec §4.4; `QuestionBank.hpp` not in `src/`). -/
def qbankSortID (pool : List Question) : List Question :=
  sortQuestions (fun a b => decide (a.id < b.id) || decide (a.id = b.id)) pool

/-- Modelled from the spec: `QuestionBank::SortAlpha` — ascending sort by
`stem` (spec §4.4; `QuestionBank.hpp` not in `src/`). -/
def qbankSortAlpha (pool : List Question) : List Question :=
  sortQuestions (fun a b => decide (a.stem < b.stem) || decide (a.stem = b.stem)) pool

/-- Modelled from the spec: `QuestionBank::Randomize` — a full shuffle using
the shared seeded stream (spec §4.4; `QuestionBank.hpp` not in `src/`):
repeatedly draw the next output position without replacement. -/
def qbankRandomize (pool : List Question) (r : EmpRandom) : List Question × EmpRandom :=
  drawK pool pool.length r

/-- Embedding of `QBL::UpdateOrder` (src/QBL.cpp:186): dispatch on the selected order;
`DEFAULT` leaves the pool untouched. -/
def UpdateOrder (order : Order) (pool : List Question) (r : EmpRandom) :
    List Question × EmpRandom :=
  match order with
  | Order.DEFAULT => (pool, r)
  | Order.RANDOM => qbankRandomize pool r
  | Order.ID => (qbankSortID pool, r)
  | Order.ALPHABETIC => (qbankSortAlpha pool, r)

/-- The driver state mutated by the flag handlers of `class QBL`
(src/QBL.cpp:37–51): the selected order, the generation count, the four tag
lists, the avoid-file names and the random generator. -/
structure QBLState where
  order : Order
  generate_count : Nat
  include_tags : List String
  exclude_tags : List String
  require_tags : List String
  sample_tags : List String
  avoid_files : List String
  rng : EmpRandom
deriving DecidableEq, Repr

/-- Embedding of `QBL::SetGenerate` (src/QBL.cpp:164): store the requested count and, if
the order has not been manually set, change it to random. -/
def QBL.SetGenerate (st : QBLState) (count : Nat) : QBLState :=
  { st with
    generate_count := count,
    order := if st.order = Order.DEFAULT then Order.RANDOM else st.order }

/-- Embedding of `QBL::SetRandomSeed` (src/QBL.cpp:173): reset the shared generator from
the seed. -/
def QBL.SetRandomSeed (st : QBLState) (seed : Int) : QBLState :=
  { st with rng := st.rng.resetSeed seed }

/-- Embedding of `QBL::SetOrder` (src/QBL.cpp:179): recognised arguments are "random",
"id" and "alpha"; anything else leaves the order unchanged. -/
def QBL.SetOrder (st : QBLState) (arg : String) : QBLState :=
  if arg = "random" then { st with order := Order.RANDOM }
  else if arg = "id" then { st with order := Order.ID }
  else if arg = "alpha" then { st with order := Order.ALPHABETIC }
  else st

/-- The question-specification flags of the driver relevant to selection and
ordering (src/QBL.cpp:66–110).  A `sample` flag carries its tag and count;
`_AddTags` (src/QBL.cpp:55) appends the tag that many times. -/
inductive CmdFlag where
  | generate (count : Nat)
  | seed (s : Int)
  | order (arg : String)
  | includeTag (tag : String)
  | excludeTag (tag : String)
  | requireTag (tag : String)
  | sample (tag : String) (count : Nat)
  | avoid (file : String)
deriving DecidableEq, Repr

/-- Dispatch of one command-line flag to its handler (the lambdas registered
in the `QBL` constructor, src/QBL.cpp:63–126). -/
def processFlag (st : QBLState) : CmdFlag → QBLState
  | CmdFlag.generate c => QBL.SetGenerate st c
  | CmdFlag.seed s => QBL.SetRandomSeed st s
  | CmdFlag.order a => QBL.SetOrder st a
  | CmdFlag.includeTag t => { st with include_tags := st.include_tags ++ [t] }
  | CmdFlag.excludeTag t => { st with exclude_tags := st.exclude_tags ++ [t] }
  | CmdFlag.requireTag t => { st with require_tags := st.require_tags ++ [t] }
  | CmdFlag.sample t c => { st with sample_tags := st.sample_tags ++ List.replicate c t }
  | CmdFlag.avoid f => { st with avoid_files := st.avoid_files ++ [f] }

/-- The driver state before any flag is processed (member initialisers,
src/QBL.cpp:37–51); `r0` is the initial state of the default-constructed
`emp::Random`. -/
def initQBL (r0 : EmpRandom) : QBLState :=
  ⟨Order.DEFAULT, 0, [], [], [], [], [], r0⟩

/-- Embedding of `flags.Process()` (src/QBL.cpp:124): fold every flag over the driver
state in command-line order. -/
def processFlags (flags : List CmdFlag) (r0 : EmpRandom) : QBLState :=
  flags.foldl processFlag (initQBL r0)

/-- Embedding of `QBL::Generate` (src/QBL.cpp:233): validate the bank, then — only when a
generation count was requested — run constraint-based selection.  Validation
failure is fatal to proceeding (spec §4.2), modelled as `Except.error`
carrying the full violation list. -/
def QBL.GenerateStep (generateCount : Nat) (pool : List Question) (r : EmpRandom)
    (includeTags excludeTags requireTags sampleTags : List String)
    (avoidFiles : List (List String)) : Except (List String) GenState :=
  let errs := validate pool
  if errs.isEmpty then
    if generateCount ≠ 0 then
      Except.ok (bankGenerate pool generateCount r includeTags excludeTags
        requireTags sampleTags avoidFiles)
    else
      Except.ok ⟨pool, r, []⟩
  else
    Except.error errs

/-- Modelled from the spec: `QuestionBank::LogQuestions` (spec §4.5,
`QuestionBank.hpp` not in `src/`): persist the chosen identifiers, one per
line. -/
def LogQuestions (pool : List Question) : List String :=
  pool.map fun q => q.id

/-- Embedding of `main` (src/QBL.cpp:443) after loading: `Generate`, `UpdateOrder`, then
print the final sequence.  `pool` is the parsed bank and `avoidContents`
maps an avoid-file name to its lines of identifiers. -/
def runQBL (flags : List CmdFlag) (r0 : EmpRandom) (pool : List Question)
    (avoidContents : String → List String) : Except (List String) (List Question) :=
  let st := processFlags flags r0
  match QBL.GenerateStep st.generate_count pool st.rng st.include_tags st.exclude_tags
      st.require_tags st.sample_tags (st.avoid_files.map avoidContents) with
  | Except.error e => Except.error e
  | Except.ok gs => Except.ok (UpdateOrder st.order gs.chosen gs.rng).1

/-- Test from `emp::String::OnlyWhitespace` (external Empirical library): true when
every character of the line is whitespace (in particular for the empty
line). -/
def onlyWhitespace (s : String) : Bool :=
  s.data.all fun c => c.isWhitespace

/-- Does the string begin with the given marker (`emp::File::RemoveIfBegins`
test, external Empirical library)? -/
def beginsWith (pre s : String) : Bool :=
  decide (s.data.take pre.data.length = pre.data)

/-- Parser-side state of the Bank: the finalized records accumulated so far
(each a list of raw lines, in insertion order) and the in-progress record.
Spec §4.1: the Bank Parser is a line-driven accumulator; the exact
line-prefix markers are a format detail (§6) and records are kept here as
their raw lines. -/
structure ParseState where
  bank : List (List String)
  current : List String
deriving DecidableEq, Repr

/-- Modelled from the spec: `QuestionBank::NewEntry` (`QuestionBank.hpp` not
in `src/`): a blank line finalizes the in-progress record if it is
non-empty and pushes it into the Bank, then resets the accumulator;
consecutive blank lines are idempotent no-ops (spec §4.1). -/
def QuestionBank.NewEntry (st : ParseState) : ParseState :=
  if st.current.isEmpty then st
  else ⟨st.bank ++ [st.current], []⟩

/-- Modelled from the spec: `QuestionBank::AddLine` (`QuestionBank.hpp` not
in `src/`): accumulate one non-blank line into the in-progress record
(spec §4.1). -/
def QuestionBank.AddLine (st : ParseState) (line : String) : ParseState :=
  { st with current := st.current ++ [line] }

/-- Modelled from the spec: `QuestionBank::NewFile` (`QuestionBank.hpp` not
in `src/`): starting a new source file resets per-file parser state but not
the accumulated pool; a record still in progress from the previous file is
finalized as if a trailing blank line were present (spec §4.1). -/
def QuestionBank.NewFile (st : ParseState) : ParseState :=
  QuestionBank.NewEntry st

/-- One iteration of the line loop of `QBL::LoadFiles` (src/QBL.cpp:226):
a whitespace-only line triggers `NewEntry`, any other line is added to the
in-progress record. -/
def loadLine (st : ParseState) (line : String) : ParseState :=
  if onlyWhitespace line then QuestionBank.NewEntry st
  else QuestionBank.AddLine st line

/-- Loading one file in `QBL::LoadFiles` (src/QBL.cpp:220): announce the new
file, strip comment lines (`file.RemoveIfBegins("%")`), then run the line
loop. -/
def loadFile (st : ParseState) (lines : List String) : ParseState :=
  (lines.filter fun l => !(beginsWith "%" l)).foldl loadLine (QuestionBank.NewFile st)

/-- Embedding of `QBL::LoadFiles` (src/QBL.cpp:220) over all question files, starting
from the empty Bank.  The final `NewEntry` is modelled from the spec: at end
of input an in-progress record is finalized as if a trailing blank line were
present (spec §4.1; the finalization lives in `QuestionBank.hpp`, not in
`src/`). -/
def LoadFiles (files : List (List String)) : ParseState :=
  QuestionBank.NewEntry (files.foldl loadFile ⟨[], []⟩)

theorem getD_cons_self_mem (c : Question) (cs : List Question) (i : Nat) :
    (c :: cs).getD i c ∈ c :: cs := by
  by_cases h : i < (c :: cs).length
  · rw [List.getD_eq_getElem?_getD, List.getElem?_eq_getElem h]
    exact List.getElem_mem h
  · rw [List.getD_eq_getElem?_getD, List.getElem?_eq_none (by omega)]
    simp

theorem drawFrom_eq_none (cands : List Question) (r : EmpRandom)
    (h : drawFrom cands r = none) : cands = [] := by
  cases cands with
  | nil => rfl
  | cons c cs => simp [drawFrom] at h

theorem drawFrom_mem (cands : List Question) (r : EmpRandom) (p : Question × EmpRandom)
    (h : drawFrom cands r = some p) : p.1 ∈ cands := by
  cases cands with
  | nil => simp [drawFrom] at h
  | cons c cs =>
    simp only [drawFrom, Option.some.injEq] at h
    rw [← h]
    exact getD_cons_self_mem c cs _

theorem drawK_subset (k : Nat) :
    ∀ (cands : List Question) (r : EmpRandom) (q : Question),
      q ∈ (drawK cands k r).1 → q ∈ cands := by
  induction k with
  | zero => intro cands r q hq; simp [drawK] at hq
  | succ k ih =>
    intro cands r q hq
    cases cands with
    | nil => simp [drawK] at hq
    | cons c cs =>
      simp only [drawK] at hq
      rcases List.mem_cons.mp hq with h | h
      · rw [h]; exact getD_cons_self_mem c cs _
      · exact List.eraseIdx_subset _ _ (ih _ _ q h)

theorem perm_get_cons_eraseIdx (l : List Question) :
    ∀ (i : Nat) (h : i < l.length), List.Perm l (l.get ⟨i, h⟩ :: l.eraseIdx i) := by
  induction l with
  | nil => intro i h; simp at h
  | cons c cs ih =>
    intro i h
    cases i with
    | zero => simp [List.eraseIdx]
    | succ i =>
      have h' : i < cs.length := by simpa using h
      have hp := ih i h'
      have hg : (c :: cs).get ⟨i + 1, h⟩ = cs.get ⟨i, h'⟩ := rfl
      have he : (c :: cs).eraseIdx (i + 1) = c :: cs.eraseIdx i := rfl
      rw [hg, he]
      exact (hp.cons c).trans (List.Perm.swap _ _ _)

theorem drawK_perm (k : Nat) :
    ∀ (cands : List Question) (r : EmpRandom), cands.length ≤ k →
      List.Perm (drawK cands k r).1 cands := by
  induction k with
  | zero =>
    intro cands r h
    have : cands = [] := List.length_eq_zero.mp (Nat.le_zero.mp h)
    rw [this]; simp [drawK]
  | succ k ih =>
    intro cands r h
    cases cands with
    | nil => simp [drawK]
    | cons c cs =>
      have hlen : 0 < (c :: cs).length := by simp
      have hi : (EmpRandom.getUInt r (c :: cs).length).1 < (c :: cs).length := by
        simp only [EmpRandom.getUInt]
        exact Nat.mod_lt _ hlen
      have hgd : (c :: cs).getD (EmpRandom.getUInt r (c :: cs).length).1 c =
          (c :: cs).get ⟨(EmpRandom.getUInt r (c :: cs).length).1, hi⟩ := by
        rw [List.getD_eq_getElem?_getD, List.getElem?_eq_getElem hi]
        simp [List.get_eq_getElem]
      have hlen2 : ((c :: cs).eraseIdx (EmpRandom.getUInt r (c :: cs).length).1).length ≤ k := by
        rw [List.length_eraseIdx]
        simp only [hi, if_pos]
        simp only [List.length_cons] at h ⊢
        omega
      have hperm := ih _ (EmpRandom.getUInt r (c :: cs).length).2 hlen2
      simp only [drawK]
      rw [hgd]
      exact (hperm.cons _).trans (perm_get_cons_eraseIdx (c :: cs) _ hi).symm

theorem sampleOne_cases (elig : List Question) (tag : String) (st : GenState) :
    (∃ q, q ∈ elig ∧ q.tags.contains tag = true ∧ q ∉ st.chosen ∧
      (sampleOne elig tag st).chosen = st.chosen ++ [q] ∧
      (sampleOne elig tag st).warnings = st.warnings) ∨
    ((∀ q ∈ elig, q.tags.contains tag = true → q ∈ st.chosen) ∧
      (sampleOne elig tag st).chosen = st.chosen ∧
      (sampleOne elig tag st).warnings = st.warnings ++ [GenWarning.quotaUnmet tag]) := by
  rcases hd : drawFrom (elig.filter fun q => q.tags.contains tag && !(st.chosen.contains q))
      st.rng with _ | p
  · right
    have hnil := drawFrom_eq_none _ _ hd
    have hch : (sampleOne elig tag st).chosen = st.chosen := by
      simp only [sampleOne]; rw [hd]
    have hwa : (sampleOne elig tag st).warnings = st.warnings ++ [GenWarning.quotaUnmet tag] := by
      simp only [sampleOne]; rw [hd]
    refine ⟨?_, hch, hwa⟩
    intro q hq htag
    by_contra hn
    have : q ∈ (elig.filter fun q => q.tags.contains tag && !(st.chosen.contains q)) := by
      rw [List.mem_filter]
      refine ⟨hq, ?_⟩
      simp only [htag, Bool.true_and, Bool.not_eq_true']
      simpa [List.elem_iff] using hn
    rw [hnil] at this
    simp at this
  · left
    have hmem := drawFrom_mem _ _ _ hd
    rw [List.mem_filter] at hmem
    have hch : (sampleOne elig tag st).chosen = st.chosen ++ [p.1] := by
      simp only [sampleOne]; rw [hd]
    have hwa : (sampleOne elig tag st).warnings = st.warnings := by
      simp only [sampleOne]; rw [hd]
    have h2 := hmem.2
    simp only [Bool.and_eq_true, Bool.not_eq_true'] at h2
    refine ⟨p.1, hmem.1, h2.1, ?_, hch, hwa⟩
    simpa [List.elem_iff] using h2.2

theorem sampleOne_chosen_mono (elig : List Question) (tag : String) (st : GenState) :
    ∀ q ∈ st.chosen, q ∈ (sampleOne elig tag st).chosen := by
  intro q hq
  rcases sampleOne_cases elig tag st with ⟨p, _, _, _, hc, _⟩ | ⟨_, hc, _⟩
  · rw [hc]; exact List.mem_append_left _ hq
  · rw [hc]; exact hq

theorem sampleOne_warnings_mono (elig : List Question) (tag : String) (st : GenState) :
    ∀ w ∈ st.warnings, w ∈ (sampleOne elig tag st).warnings := by
  intro w hw
  rcases sampleOne_cases elig tag st with ⟨p, _, _, _, _, hc⟩ | ⟨_, _, hc⟩
  · rw [hc]; exact hw
  · rw [hc]; exact List.mem_append_left _ hw

theorem sampleOne_chosen_sub (elig : List Question) (tag : String) (st : GenState) :
    ∀ q ∈ (sampleOne elig tag st).chosen, q ∈ st.chosen ∨ q ∈ elig := by
  intro q hq
  rcases sampleOne_cases elig tag st with ⟨p, hpe, _, _, hc, _⟩ | ⟨_, hc, _⟩
  · rw [hc] at hq
    rcases List.mem_append.mp hq with h | h
    · exact Or.inl h
    · simp at h; rw [h]; exact Or.inr hpe
  · rw [hc] at hq; exact Or.inl hq

theorem samplePhase_chosen_mono (elig : List Question) :
    ∀ (ts : List String) (st : GenState) (q : Question),
      q ∈ st.chosen → q ∈ (samplePhase elig ts st).chosen := by
  intro ts
  induction ts with
  | nil => intro st q hq; exact hq
  | cons t ts ih =>
    intro st q hq
    exact ih (sampleOne elig t st) q (sampleOne_chosen_mono elig t st q hq)

theorem samplePhase_warnings_mono (elig : List Question) :
    ∀ (ts : List String) (st : GenState) (w : GenWarning),
      w ∈ st.warnings → w ∈ (samplePhase elig ts st).warnings := by
  intro ts
  induction ts with
  | nil => intro st w hw; exact hw
  | cons t ts ih =>
    intro st w hw
    exact ih (sampleOne elig t st) w (sampleOne_warnings_mono elig t st w hw)

theorem samplePhase_chosen_sub (elig : List Question) :
    ∀ (ts : List String) (st : GenState) (q : Question),
      q ∈ (samplePhase elig ts st).chosen → q ∈ st.chosen ∨ q ∈ elig := by
  intro ts
  induction ts with
  | nil => intro st q hq; exact Or.inl hq
  | cons t ts ih =>
    intro st q hq
    rcases ih (sampleOne elig t st) q hq with h | h
    · exact sampleOne_chosen_sub elig t st q h
    · exact Or.inr h

theorem mem_eligibleList (pool : List Question) (avoidIds excludeTags requireTags : List String)
    (q : Question) (h : q ∈ eligibleList pool avoidIds excludeTags requireTags) :
    q ∈ pool ∧ avoidIds.contains q.id = false ∧ hasAnyTag q excludeTags = false := by
  rw [eligibleList, List.mem_filter] at h
  have h2 := h.2
  simp only [Bool.and_eq_true, Bool.not_eq_true'] at h2
  exact ⟨h.1, h2.1.1, h2.1.2⟩

theorem bankGenerate_chosen_mem_elig (pool : List Question) (count : Nat) (r : EmpRandom)
    (includeTags excludeTags requireTags sampleTags : List String)
    (avoidFiles : List (List String)) (q : Question)
    (hq : q ∈ (bankGenerate pool count r includeTags excludeTags requireTags sampleTags
      avoidFiles).chosen) :
    q ∈ eligibleList pool (avoidedIds avoidFiles) excludeTags requireTags := by
  simp only [bankGenerate] at hq
  rcases List.mem_append.mp hq with h | h
  · rcases samplePhase_chosen_sub _ _ _ _ h with h0 | h0
    · simp at h0
    · exact h0
  · have h1 := drawK_subset _ _ _ q h
    rw [List.mem_filter] at h1
    have h2 := h1.1
    rw [fillEligible, List.mem_filter] at h2
    exact h2.1

/-- C1: no question whose id lies in the avoid-set (the union of the
identifiers listed in the avoid-files passed to `Generate`) appears in
`Generate`'s output, for every pool, count, random state and
include/exclude/require/sample constraint set. -/
theorem avoid_exclusion (pool : List Question) (count : Nat) (r : EmpRandom)
    (includeTags excludeTags requireTags sampleTags : List String)
    (avoidFiles : List (List String)) :
    ((bankGenerate pool count r includeTags excludeTags requireTags sampleTags
        avoidFiles).chosen.all
      fun q => !((avoidedIds avoidFiles).contains q.id)) = true := by
  rw [List.all_eq_true]
  intro q hq
  have he := bankGenerate_chosen_mem_elig pool count r includeTags excludeTags requireTags
    sampleTags avoidFiles q hq
  have h := (mem_eligibleList _ _ _ _ q he).2.1
  simp only [Bool.not_eq_true']
  exact h

/-- C6: a question carrying any tag in `exclude_tags` never appears in
`Generate`'s output, whatever the require/include/sample constraints say,
for every pool, count and random state. -/
theorem exclusion_dominance (pool : List Question) (count : Nat) (r : EmpRandom)
    (includeTags excludeTags requireTags sampleTags : List String)
    (avoidFiles : List (List String)) :
    ((bankGenerate pool count r includeTags excludeTags requireTags sampleTags
        avoidFiles).chosen.all
      fun q => !(hasAnyTag q excludeTags)) = true := by
  rw [List.all_eq_true]
  intro q hq
  have he := bankGenerate_chosen_mem_elig pool count r includeTags excludeTags requireTags
    sampleTags avoidFiles q hq
  have h := (mem_eligibleList _ _ _ _ q he).2.2
  simp only [Bool.not_eq_true']
  exact h

/-- C9: feeding the identifier log of one generation back as the sole
avoid-file of a second generation on the same pool yields an output sharing
no question with the first run, whatever the second run's remaining
constraints are. -/
theorem log_avoid_round_trip (pool : List Question) (c1 c2 : Nat) (r1 r2 : EmpRandom)
    (i1 e1 rq1 s1 i2 e2 rq2 s2 : List String) (avf1 : List (List String)) :
    ((bankGenerate pool c2 r2 i2 e2 rq2 s2
        [LogQuestions (bankGenerate pool c1 r1 i1 e1 rq1 s1 avf1).chosen]).chosen.all
      fun q => !((bankGenerate pool c1 r1 i1 e1 rq1 s1 avf1).chosen.contains q)) = true := by
  rw [List.all_eq_true]
  intro q hq
  have he := bankGenerate_chosen_mem_elig pool c2 r2 i2 e2 rq2 s2
    [LogQuestions (bankGenerate pool c1 r1 i1 e1 rq1 s1 avf1).chosen] q hq
  have h := (mem_eligibleList _ _ _ _ q he).2.1
  simp only [avoidedIds, LogQuestions, List.foldr, List.append_nil] at h
  simp only [Bool.not_eq_true']
  rw [← Bool.not_eq_true]
  intro hcon
  have hqmem : q ∈ (bankGenerate pool c1 r1 i1 e1 rq1 s1 avf1).chosen := by
    simpa [List.elem_iff] using hcon
  have : q.id ∈ (bankGenerate pool c1 r1 i1 e1 rq1 s1 avf1).chosen.map
      (fun q => q.id) := List.mem_map_of_mem _ hqmem
  rw [← Bool.not_eq_true] at h
  exact h (by simpa [List.elem_iff] using this)

/-- The eligible questions carrying tag `t` (the pool a sample-tag quota
draws from, spec §4.3). -/
def availQ (elig : List Question) (t : String) : List Question :=
  elig.filter fun q => q.tags.contains t

/-- How many distinct eligible `t`-tagged questions are already chosen. -/
def chosenTagCount (elig : List Question) (t : String) (chosen : List Question) : Nat :=
  ((availQ elig t).toFinset.filter fun q => q ∈ chosen).card

theorem chosenTagCount_mono (elig : List Question) (t : String)
    (chosen chosen' : List Question) (h : ∀ q ∈ chosen, q ∈ chosen') :
    chosenTagCount elig t chosen ≤ chosenTagCount elig t chosen' := by
  apply Finset.card_le_card
  apply Finset.monotone_filter_right
  intro q hq
  exact h q hq

theorem chosenTagCount_le_card (elig : List Question) (t : String) (chosen : List Question) :
    chosenTagCount elig t chosen ≤ (availQ elig t).toFinset.card :=
  Finset.card_le_card (Finset.filter_subset _ _)

theorem chosenTagCount_append (elig : List Question) (t : String) (chosen : List Question)
    (q : Question) (hqe : q ∈ elig) (hqt : q.tags.contains t = true) (hqc : q ∉ chosen) :
    chosenTagCount elig t (chosen ++ [q]) = chosenTagCount elig t chosen + 1 := by
  have hqA : q ∈ (availQ elig t).toFinset := by
    rw [List.mem_toFinset, availQ, List.mem_filter]
    exact ⟨hqe, hqt⟩
  have hins : ((availQ elig t).toFinset.filter fun a => a ∈ chosen ++ [q]) =
      insert q ((availQ elig t).toFinset.filter fun a => a ∈ chosen) := by
    ext a
    simp only [Finset.mem_filter, Finset.mem_insert, List.mem_append, List.mem_singleton]
    constructor
    · rintro ⟨ha, hc | rfl⟩
      · exact Or.inr ⟨ha, hc⟩
      · exact Or.inl rfl
    · rintro (rfl | ⟨ha, hc⟩)
      · exact ⟨hqA, Or.inr rfl⟩
      · exact ⟨ha, Or.inl hc⟩
  rw [chosenTagCount, hins, Finset.card_insert_of_not_mem]
  · rfl
  · simp only [Finset.mem_filter]
    rintro ⟨-, hc⟩
    exact hqc hc

theorem chosenTagCount_full (elig : List Question) (t : String) (chosen : List Question)
    (h : ∀ q ∈ elig, q.tags.contains t = true → q ∈ chosen) :
    chosenTagCount elig t chosen = (availQ elig t).toFinset.card := by
  rw [chosenTagCount, Finset.filter_true_of_mem]
  intro q hq
  rw [List.mem_toFinset, availQ, List.mem_filter] at hq
  exact h q hq.1 hq.2

theorem samplePhase_count (elig : List Question) (t : String) :
    ∀ (ts : List String) (st : GenState),
      min (chosenTagCount elig t st.chosen + ts.count t) (availQ elig t).toFinset.card ≤
        chosenTagCount elig t (samplePhase elig ts st).chosen := by
  intro ts
  induction ts with
  | nil =>
    intro st
    simp only [samplePhase, List.foldl_nil, List.count_nil, Nat.add_zero]
    exact min_le_left _ _
  | cons t' ts ih =>
    intro st
    have hstep : samplePhase elig (t' :: ts) st = samplePhase elig ts (sampleOne elig t' st) :=
      rfl
    rw [hstep]
    have hcnt : (t' :: ts).count t = ts.count t + (if t' = t then 1 else 0) := by
      rw [List.count_cons]
      simp [beq_iff_eq]
    rcases sampleOne_cases elig t' st with ⟨q, hqe, hqt, hqc, hch, -⟩ | ⟨hall, hch, -⟩
    · by_cases ht : t' = t
      · have hm : chosenTagCount elig t (sampleOne elig t' st).chosen =
            chosenTagCount elig t st.chosen + 1 := by
          rw [hch]
          exact chosenTagCount_append elig t st.chosen q hqe (ht ▸ hqt) hqc
        have := ih (sampleOne elig t' st)
        rw [hm] at this
        refine le_trans ?_ this
        apply min_le_min_right
        rw [hcnt, if_pos ht]
        omega
      · have hm : chosenTagCount elig t st.chosen ≤
            chosenTagCount elig t (sampleOne elig t' st).chosen := by
          rw [hch]
          exact chosenTagCount_mono elig t _ _ (fun q hq => List.mem_append_left _ hq)
        have := ih (sampleOne elig t' st)
        refine le_trans ?_ this
        apply min_le_min_right
        rw [hcnt, if_neg ht]
        omega
    · by_cases ht : t' = t
      · have hfull : chosenTagCount elig t st.chosen = (availQ elig t).toFinset.card :=
          chosenTagCount_full elig t st.chosen (fun q hq hqt => hall q hq (ht ▸ hqt))
        refine le_trans (min_le_right _ _) ?_
        rw [← hfull]
        have h1 : chosenTagCount elig t st.chosen ≤
            chosenTagCount elig t (sampleOne elig t' st).chosen := by
          rw [hch]
        exact le_trans h1 (chosenTagCount_mono elig t _ _
          (fun q hq => samplePhase_chosen_mono elig ts _ q hq))
      · have := ih (sampleOne elig t' st)
        rw [hch] at this
        refine le_trans ?_ this
        apply min_le_min_right
        rw [hcnt, if_neg ht]
        omega

theorem samplePhase_unmet (elig : List Question) (t : String) :
    ∀ (ts : List String) (st : GenState),
      (availQ elig t).toFinset.card < chosenTagCount elig t st.chosen + ts.count t →
      (∀ q ∈ availQ elig t, q ∈ (samplePhase elig ts st).chosen) ∧
        GenWarning.quotaUnmet t ∈ (samplePhase elig ts st).warnings := by
  intro ts
  induction ts with
  | nil =>
    intro st h
    simp only [List.count_nil, Nat.add_zero] at h
    exact absurd h (Nat.not_lt.mpr (chosenTagCount_le_card elig t st.chosen))
  | cons t' ts ih =>
    intro st h
    have hstep : samplePhase elig (t' :: ts) st = samplePhase elig ts (sampleOne elig t' st) :=
      rfl
    rw [hstep]
    have hcnt : (t' :: ts).count t = ts.count t + (if t' = t then 1 else 0) := by
      rw [List.count_cons]
      simp [beq_iff_eq]
    rcases sampleOne_cases elig t' st with ⟨q, hqe, hqt, hqc, hch, hw⟩ | ⟨hall, hch, hw⟩
    · by_cases ht : t' = t
      · have hm : chosenTagCount elig t (sampleOne elig t' st).chosen =
            chosenTagCount elig t st.chosen + 1 := by
          rw [hch]
          exact chosenTagCount_append elig t st.chosen q hqe (ht ▸ hqt) hqc
        apply ih
        rw [hm]
        rw [hcnt, if_pos ht] at h
        omega
      · have hm : chosenTagCount elig t st.chosen ≤
            chosenTagCount elig t (sampleOne elig t' st).chosen := by
          rw [hch]
          exact chosenTagCount_mono elig t _ _ (fun a ha => List.mem_append_left _ ha)
        apply ih
        rw [hcnt, if_neg ht] at h
        omega
    · by_cases ht : t' = t
      · constructor
        · intro q hq
          rw [availQ, List.mem_filter] at hq
          have : q ∈ st.chosen := hall q hq.1 (ht ▸ hq.2)
          apply samplePhase_chosen_mono
          rw [hch]
          exact this
        · apply samplePhase_warnings_mono
          rw [hw, ht]
          exact List.mem_append_right _ (by simp)
      · apply ih
        rw [hch]
        rw [hcnt, if_neg ht] at h
        omega

theorem bankGenerate_chosen_split (pool : List Question) (count : Nat) (r : EmpRandom)
    (includeTags excludeTags requireTags sampleTags : List String)
    (avoidFiles : List (List String)) (q : Question)
    (hq : q ∈ (samplePhase (eligibleList pool (avoidedIds avoidFiles) excludeTags requireTags)
      sampleTags ⟨[], r, []⟩).chosen) :
    q ∈ (bankGenerate pool count r includeTags excludeTags requireTags sampleTags
      avoidFiles).chosen := by
  simp only [bankGenerate]
  exact List.mem_append_left _ hq

theorem bankGenerate_warnings_split (pool : List Question) (count : Nat) (r : EmpRandom)
    (includeTags excludeTags requireTags sampleTags : List String)
    (avoidFiles : List (List String)) (w : GenWarning)
    (hw : w ∈ (samplePhase (eligibleList pool (avoidedIds avoidFiles) excludeTags requireTags)
      sampleTags ⟨[], r, []⟩).warnings) :
    w ∈ (bankGenerate pool count r includeTags excludeTags requireTags sampleTags
      avoidFiles).warnings := by
  simp only [bankGenerate]
  exact List.mem_append_left _ hw

theorem chosenTagCount_nil (elig : List Question) (t : String) :
    chosenTagCount elig t [] = 0 := by
  simp [chosenTagCount]

/-- C7: for a sample-tag quota `(t, k)` (the tag `t` appears `k` times in
`sample_tags`, see `QBL::_AddTags`): when at least `k` distinct eligible
questions carry `t` after avoid/exclude/require filtering, the output of
`Generate` contains at least `k` distinct questions carrying `t`; when fewer
than `k` exist, every one of them is taken and a `QuotaUnmet` warning is
reported while generation still completes. -/
theorem quota_lower_bound (pool : List Question) (count : Nat) (r : EmpRandom)
    (includeTags excludeTags requireTags sampleTags : List String)
    (avoidFiles : List (List String)) (t : String) :
    (sampleTags.count t ≤
        (availQ (eligibleList pool (avoidedIds avoidFiles) excludeTags requireTags)
          t).toFinset.card →
      ∃ ds : Finset Question, sampleTags.count t ≤ ds.card ∧
        ∀ q ∈ ds, q ∈ (bankGenerate pool count r includeTags excludeTags requireTags
          sampleTags avoidFiles).chosen ∧ q.tags.contains t = true) ∧
    ((availQ (eligibleList pool (avoidedIds avoidFiles) excludeTags requireTags)
        t).toFinset.card < sampleTags.count t →
      (∀ q ∈ availQ (eligibleList pool (avoidedIds avoidFiles) excludeTags requireTags) t,
        q ∈ (bankGenerate pool count r includeTags excludeTags requireTags
          sampleTags avoidFiles).chosen) ∧
      GenWarning.quotaUnmet t ∈ (bankGenerate pool count r includeTags excludeTags
        requireTags sampleTags avoidFiles).warnings) := by
  constructor
  · intro hk
    have h1 := samplePhase_count (eligibleList pool (avoidedIds avoidFiles) excludeTags
      requireTags) t sampleTags ⟨[], r, []⟩
    rw [chosenTagCount_nil, Nat.zero_add, min_eq_left hk] at h1
    refine ⟨(availQ (eligibleList pool (avoidedIds avoidFiles) excludeTags requireTags)
        t).toFinset.filter
      (fun q => q ∈ (samplePhase (eligibleList pool (avoidedIds avoidFiles) excludeTags
        requireTags) sampleTags ⟨[], r, []⟩).chosen), h1, ?_⟩
    intro q hq
    rw [Finset.mem_filter] at hq
    refine ⟨bankGenerate_chosen_split pool count r includeTags excludeTags requireTags
      sampleTags avoidFiles q hq.2, ?_⟩
    have := hq.1
    rw [List.mem_toFinset, availQ, List.mem_filter] at this
    exact this.2
  · intro hk
    have h2 := samplePhase_unmet (eligibleList pool (avoidedIds avoidFiles) excludeTags
      requireTags) t sampleTags ⟨[], r, []⟩ (by rw [chosenTagCount_nil]; omega)
    refine ⟨?_, bankGenerate_warnings_split pool count r includeTags excludeTags requireTags
      sampleTags avoidFiles _ h2.2⟩
    intro q hq
    exact bankGenerate_chosen_split pool count r includeTags excludeTags requireTags
      sampleTags avoidFiles q (h2.1 q hq)

/-- Equality of driver states on every field except the random generator. -/
def EqExceptRng (s1 s2 : QBLState) : Prop :=
  s1.order = s2.order ∧ s1.generate_count = s2.generate_count ∧
  s1.include_tags = s2.include_tags ∧ s1.exclude_tags = s2.exclude_tags ∧
  s1.require_tags = s2.require_tags ∧ s1.sample_tags = s2.sample_tags ∧
  s1.avoid_files = s2.avoid_files

theorem processFlag_eqExceptRng (s1 s2 : QBLState) (fl : CmdFlag)
    (h : EqExceptRng s1 s2) : EqExceptRng (processFlag s1 fl) (processFlag s2 fl) := by
  obtain ⟨o1, g1, i1, e1, rq1, sa1, a1, rng1⟩ := s1
  obtain ⟨o2, g2, i2, e2, rq2, sa2, a2, rng2⟩ := s2
  obtain ⟨h1, h2, h3, h4, h5, h6, h7⟩ := h
  simp only at h1 h2 h3 h4 h5 h6 h7
  subst h1; subst h2; subst h3; subst h4; subst h5; subst h6; subst h7
  cases fl <;>
    simp [processFlag, QBL.SetGenerate, QBL.SetRandomSeed, QBL.SetOrder, EqExceptRng] <;>
    split_ifs <;> simp

theorem processFlag_seed_eq (s1 s2 : QBLState) (sd : Int) (h : EqExceptRng s1 s2) :
    processFlag s1 (CmdFlag.seed sd) = processFlag s2 (CmdFlag.seed sd) := by
  obtain ⟨o1, g1, i1, e1, rq1, sa1, a1, rng1⟩ := s1
  obtain ⟨o2, g2, i2, e2, rq2, sa2, a2, rng2⟩ := s2
  obtain ⟨h1, h2, h3, h4, h5, h6, h7⟩ := h
  simp only at h1 h2 h3 h4 h5 h6 h7
  subst h1; subst h2; subst h3; subst h4; subst h5; subst h6; subst h7
  simp [processFlag, QBL.SetRandomSeed, EmpRandom.resetSeed]

theorem foldl_processFlag_seed (flags : List CmdFlag) :
    ∀ (s1 s2 : QBLState) (sd : Int), EqExceptRng s1 s2 → CmdFlag.seed sd ∈ flags →
      flags.foldl processFlag s1 = flags.foldl processFlag s2 := by
  induction flags with
  | nil => intro s1 s2 sd h hm; simp at hm
  | cons fl fls ih =>
    intro s1 s2 sd h hm
    by_cases hseed : ∃ s', fl = CmdFlag.seed s'
    · obtain ⟨s', rfl⟩ := hseed
      simp only [List.foldl_cons, processFlag_seed_eq s1 s2 s' h]
    · have h' := processFlag_eqExceptRng s1 s2 fl h
      have hm' : CmdFlag.seed sd ∈ fls := by
        rcases List.mem_cons.mp hm with h0 | h0
        · exact absurd ⟨sd, h0.symm⟩ hseed
        · exact h0
      simp only [List.foldl_cons]
      exact ih _ _ sd h' hm'

/-- C2: `Generate` runs are reproducible from the seed alone: two runs of
the full pipeline with identical pool, flags (hence identical target count
and constraints) and a `--seed` flag among them produce identical output,
whatever the random generator's state was before the seed was applied. -/
theorem generate_deterministic (flags : List CmdFlag) (r1 r2 : EmpRandom) (sd : Int)
    (pool : List Question) (avoidContents : String → List String)
    (h : CmdFlag.seed sd ∈ flags) :
    runQBL flags r1 pool avoidContents = runQBL flags r2 pool avoidContents := by
  have heq : processFlags flags r1 = processFlags flags r2 :=
    foldl_processFlag_seed flags (initQBL r1) (initQBL r2) sd
      (by simp [EqExceptRng, initQBL]) h
  simp only [runQBL, heq]

theorem generate_deterministic_witness :
    CmdFlag.seed 7 ∈ [CmdFlag.generate 2, CmdFlag.seed 7] ∧
      runQBL [CmdFlag.generate 2, CmdFlag.seed 7] ⟨3⟩ [] (fun _ => []) =
        runQBL [CmdFlag.generate 2, CmdFlag.seed 7] ⟨9⟩ [] (fun _ => []) :=
  ⟨by decide,
    generate_deterministic [CmdFlag.generate 2, CmdFlag.seed 7] ⟨3⟩ ⟨9⟩ 7 [] (fun _ => [])
      (by decide)⟩

/-- C3: whenever validation of the pool yields a non-empty violation list,
the run stops there: selection is not invoked, ordering and rendering are
skipped and the pipeline's result is the error carrying the full list. -/
theorem validation_fatal (flags : List CmdFlag) (r0 : EmpRandom) (pool : List Question)
    (avoidContents : String → List String) (h : validate pool ≠ []) :
    runQBL flags r0 pool avoidContents = Except.error (validate pool) := by
  have hne : (validate pool).isEmpty = false := by
    cases hv : validate pool with
    | nil => exact absurd hv h
    | cons a l => rfl
  simp [runQBL, QBL.GenerateStep, hne]

theorem validation_fatal_witness :
    validate [⟨"b1", "", [("x", true)], []⟩] ≠ [] ∧
      runQBL [CmdFlag.generate 1] ⟨1⟩ [⟨"b1", "", [("x", true)], []⟩] (fun _ => []) =
        Except.error (validate [⟨"b1", "", [("x", true)], []⟩]) :=
  ⟨by decide,
    validation_fatal [CmdFlag.generate 1] ⟨1⟩ [⟨"b1", "", [("x", true)], []⟩] (fun _ => [])
      (by decide)⟩

/-- C10: when no generation count was requested (`generate_count` still `0`),
the selection engine is never invoked: after successful validation the bank's
pool reaches the ordering/rendering stage exactly as parsing produced it and
the random stream is untouched by the generation phase. -/
theorem no_generate_frame (pool : List Question) (r : EmpRandom)
    (includeTags excludeTags requireTags sampleTags : List String)
    (avoidFiles : List (List String)) (hv : validate pool = []) :
    QBL.GenerateStep 0 pool r includeTags excludeTags requireTags sampleTags avoidFiles =
      Except.ok ⟨pool, r, []⟩ := by
  simp [QBL.GenerateStep, hv]

theorem no_generate_frame_witness :
    validate [⟨"q1", "A?", [("x", true), ("y", false)], []⟩] = [] ∧
      QBL.GenerateStep 0 [⟨"q1", "A?", [("x", true), ("y", false)], []⟩] ⟨1⟩ [] [] [] [] [] =
        Except.ok ⟨[⟨"q1", "A?", [("x", true), ("y", false)], []⟩], ⟨1⟩, []⟩ :=
  ⟨by decide,
    no_generate_frame [⟨"q1", "A?", [("x", true), ("y", false)], []⟩] ⟨1⟩ [] [] [] [] []
      (by decide)⟩

theorem insertSorted_perm (le : Question → Question → Bool) (q : Question) :
    ∀ l : List Question, List.Perm (insertSorted le q l) (q :: l) := by
  intro l
  induction l with
  | nil => simp [insertSorted]
  | cons c cs ih =>
    simp only [insertSorted]
    split
    · exact List.Perm.refl _
    · exact (ih.cons c).trans (List.Perm.swap _ _ _)

theorem sortQuestions_perm (le : Question → Question → Bool) :
    ∀ l : List Question, List.Perm (sortQuestions le l) l := by
  intro l
  induction l with
  | nil => simp [sortQuestions]
  | cons c cs ih =>
    simp only [sortQuestions]
    exact (insertSorted_perm le c (sortQuestions le cs)).trans (ih.cons c)

/-- C8: selection and ordering consume one shared stream in a fixed
sequence: the orderer is applied to the selection's finished result and to
the random state left after all selection draws, so whichever ordering runs
(including the random shuffle, or none) the multiset of questions chosen by
selection is unchanged — the ordered output is always a permutation of
`Generate`'s chosen list. -/
theorem selection_unperturbed_by_order (pool : List Question) (count : Nat) (r : EmpRandom)
    (includeTags excludeTags requireTags sampleTags : List String)
    (avoidFiles : List (List String)) (ord : Order) :
    List.Perm
      (UpdateOrder ord
        (bankGenerate pool count r includeTags excludeTags requireTags sampleTags
          avoidFiles).chosen
        (bankGenerate pool count r includeTags excludeTags requireTags sampleTags
          avoidFiles).rng).1
      (bankGenerate pool count r includeTags excludeTags requireTags sampleTags
        avoidFiles).chosen := by
  cases ord with
  | DEFAULT => exact List.Perm.refl _
  | RANDOM =>
    simp only [UpdateOrder, qbankRandomize]
    exact drawK_perm _ _ _ (le_refl _)
  | ID =>
    simp only [UpdateOrder, qbankSortID]
    exact sortQuestions_perm _ _
  | ALPHABETIC =>
    simp only [UpdateOrder, qbankSortAlpha]
    exact sortQuestions_perm _ _

theorem newEntry_idem (st : ParseState) :
    QuestionBank.NewEntry (QuestionBank.NewEntry st) = QuestionBank.NewEntry st := by
  by_cases h : st.current.isEmpty = true <;> simp [QuestionBank.NewEntry, h]

theorem loadFile_newEntry (st : ParseState) (ls : List String) :
    loadFile (QuestionBank.NewEntry st) ls = loadFile st ls := by
  simp only [loadFile, QuestionBank.NewFile, newEntry_idem]

theorem loadFile_append_blank (st : ParseState) (ls : List String) :
    loadFile st (ls ++ [""]) = QuestionBank.NewEntry (loadFile st ls) := by
  have h1 : List.filter (fun l => !(beginsWith "%" l)) [""] = [""] := by decide
  have h2 : onlyWhitespace "" = true := by decide
  simp only [loadFile, List.filter_append, h1, List.foldl_append, List.foldl_cons,
    List.foldl_nil, loadLine, h2, if_pos]

theorem loadFiles_newEntry_aux (fs : List (List String)) (x : ParseState) :
    QuestionBank.NewEntry (fs.foldl loadFile (QuestionBank.NewEntry x)) =
      QuestionBank.NewEntry (fs.foldl loadFile x) := by
  cases fs with
  | nil => exact newEntry_idem x
  | cons f fs => simp only [List.foldl_cons, loadFile_newEntry]

theorem loadFiles_blank_aux (fs : List (List String)) :
    ∀ st : ParseState,
      QuestionBank.NewEntry ((fs.map fun ls => ls ++ [""]).foldl loadFile st) =
        QuestionBank.NewEntry (fs.foldl loadFile st) := by
  induction fs with
  | nil => intro st; rfl
  | cons f fs ih =>
    intro st
    simp only [List.map_cons, List.foldl_cons, loadFile_append_blank]
    rw [ih (QuestionBank.NewEntry (loadFile st f))]
    exact loadFiles_newEntry_aux fs (loadFile st f)

/-- C5: an in-progress record at end of input is finalized exactly as if a
trailing blank line were present: loading any list of files produces the
same Bank state as loading the same files with an explicit blank line
appended to each, so no trailing question is dropped, whether another file
follows or the file is the last one loaded. -/
theorem trailing_entry_finalized (files : List (List String)) :
    LoadFiles files = LoadFiles (files.map fun ls => ls ++ [""]) := by
  simp only [LoadFiles]
  exact (loadFiles_blank_aux files ⟨[], []⟩).symm

/-- A concrete valid two-question pool used in closed instances below. -/
def cxQ1 : Question := ⟨"q1", "A?", [("x", true), ("y", false)], []⟩

/-- Second question of the concrete pool. -/
def cxQ2 : Question := ⟨"q2", "B?", [("x", true), ("y", false)], []⟩

/-- C4 counterexample: a run whose flags select none of the three explicit
orderings (`[--generate 2]` alone) still emits the pool in a different order
than the Bank Parser's insertion order, because `QBL::SetGenerate`
(src/QBL.cpp:170) silently switches the order to `RANDOM` whenever
`--generate` is given and no order was manually set. -/
theorem default_order_counterexample :
    runQBL [CmdFlag.generate 2] ⟨2⟩ [cxQ1, cxQ2] (fun _ => []) = Except.ok [cxQ2, cxQ1] ∧
      [cxQ2, cxQ1] ≠ [cxQ1, cxQ2] := by
  constructor
  · rfl
  · decide

/-- Does this flag choose an ordering or request generation? -/
def isOrderOrGenerate : CmdFlag → Bool
  | CmdFlag.order _ => true
  | CmdFlag.generate _ => true
  | _ => false

theorem processFlags_no_order_invariant (flags : List CmdFlag) :
    ∀ st : QBLState, (flags.all fun fl => !(isOrderOrGenerate fl)) = true →
      (flags.foldl processFlag st).order = st.order ∧
        (flags.foldl processFlag st).generate_count = st.generate_count := by
  induction flags with
  | nil => intro st h; exact ⟨rfl, rfl⟩
  | cons fl fls ih =>
    intro st h
    rw [List.all_cons, Bool.and_eq_true] at h
    have step : (processFlag st fl).order = st.order ∧
        (processFlag st fl).generate_count = st.generate_count := by
      have hfl := h.1
      cases fl <;> simp_all [processFlag, isOrderOrGenerate, QBL.SetRandomSeed]
    obtain ⟨h1, h2⟩ := ih (processFlag st fl) h.2
    rw [List.foldl_cons]
    exact ⟨h1.trans step.1, h2.trans step.2⟩

/-- C4 (amended): the final emitted sequence retains the Bank Parser's
original insertion order on every run in which no explicit ordering was
selected *and* no `--generate` count was requested; with `--generate` the
driver defaults the order to random, so the original claim holds only in the
absence of that flag. -/
theorem default_order_amended (flags : List CmdFlag) (r0 : EmpRandom)
    (pool : List Question) (avoidContents : String → List String)
    (hv : validate pool = [])
    (h : (flags.all fun fl => !(isOrderOrGenerate fl)) = true) :
    runQBL flags r0 pool avoidContents = Except.ok pool := by
  obtain ⟨ho, hg⟩ := processFlags_no_order_invariant flags (initQBL r0) h
  have ho' : (processFlags flags r0).order = Order.DEFAULT := ho
  have hg' : (processFlags flags r0).generate_count = 0 := hg
  simp [runQBL, hg', QBL.GenerateStep, hv, ho', UpdateOrder]

theorem default_order_amended_witness :
    (validate [cxQ1, cxQ2] = [] ∧
        (([CmdFlag.seed 5].all fun fl => !(isOrderOrGenerate fl)) = true)) ∧
      runQBL [CmdFlag.seed 5] ⟨1⟩ [cxQ1, cxQ2] (fun _ => []) = Except.ok [cxQ1, cxQ2] :=
  ⟨⟨by decide, by decide⟩,
    default_order_amended [CmdFlag.seed 5] ⟨1⟩ [cxQ1, cxQ2] (fun _ => [])
      (by decide) (by decide)⟩

/-- A question tagged "hard" for the concrete quota instance below. -/
def cxHard1 : Question := ⟨"h1", "C?", [("x", true), ("y", false)], ["hard"]⟩

/-- A second question tagged "hard" for the concrete quota instance below. -/
def cxHard2 : Question := ⟨"h2", "D?", [("x", true), ("y", false)], ["hard"]⟩

theorem quota_lower_bound_witness :
    (["hard", "hard"].count "hard" ≤
        (availQ (eligibleList [cxQ1, cxHard1, cxHard2] (avoidedIds []) [] [])
          "hard").toFinset.card) ∧
      (∃ ds : Finset Question, ["hard", "hard"].count "hard" ≤ ds.card ∧
        ∀ q ∈ ds, q ∈ (bankGenerate [cxQ1, cxHard1, cxHard2] 2 ⟨1⟩ [] [] [] ["hard", "hard"]
          []).chosen ∧ q.tags.contains "hard" = true) :=
  ⟨by decide,
    (quota_lower_bound [cxQ1, cxHard1, cxHard2] 2 ⟨1⟩ [] [] [] ["hard", "hard"] [] "hard").1
      (by decide)⟩
